import Mathlib

set_option maxRecDepth 1000000
set_option maxHeartbeats 2000000

/-!
Verification of the deterministic greedy baseline of the finals-scheduler repository
(`autoAssignFinals`) and its helpers, as a shallow embedding in Lean.

Conventions of the embedding:

* Wall-clock times are the parsed form of well-formed `HH:MM` strings, a pair of
  hour and minute fields (`HM`); `toMinutes` mirrors the source helper.
* Dates are the calendar-date strings the source stores (such as `2025-05-12`);
  `Date.toDateString()` equality on such values is string equality.
* The source tracks per-worker hours as minute-differences divided by 60 and
  compares them with the hour caps 15 and 20.  Every such quantity is a whole
  number of minutes divided by 60, so this development tracks the tallies in
  minutes and multiplies both caps by 60; every comparison, sum and difference
  of the source is preserved exactly (no rounding is involved anywhere).
* `Date.now()` is modelled by an oracle `clock : Nat → Nat` giving the value of
  the n-th call of the run; the run state carries the call counter.
* Mongo documents become plain records; a missing (`undefined`/`null`) field of
  a document becomes an `Option` that is `none`.
-/

namespace FinalsScheduler

/-- Parsed form of a well-formed wall-clock string `HH:MM`. -/
structure HM where
  hh : Nat
  mm : Nat
deriving DecidableEq, Repr

/-- Source helper `toMinutes`: minutes from midnight. -/
def toMinutes (t : HM) : Nat := t.hh * 60 + t.mm

/-- Two-digit decimal rendering, mirroring the padStart call of the source. -/
def pad2 (n : Nat) : String := if n < 10 then "0" ++ toString n else toString n

/-- Source helper `toTime`: minutes from midnight back to an `HH:MM` string. -/
def toTime (mins : Nat) : String := pad2 (mins / 60) ++ ":" ++ pad2 (mins % 60)

/-- A worker document (`User` model): `_id`, `name`, `isActive`, `isCommuter`,
and the `isFloater` flag consulted by the greedy baseline. -/
structure Worker where
  id : Nat
  name : String
  isActive : Bool
  isCommuter : Bool
  isFloater : Bool
deriving DecidableEq, Repr

/-- An exam document (`Final` model): optional `userId` reference, optional
date, and the `HH:MM` interval of the exam. -/
structure Exam where
  userId : Option Nat
  date : Option String
  startTime : HM
  endTime : HM
deriving DecidableEq, Repr

/-- The date and time fields of a shift, the part of a shift object that the
conflict predicate and the eligibility filter read. -/
structure BlockTimes where
  date : String
  startTime : HM
  endTime : HM
deriving DecidableEq, Repr

/-- A block pushed onto the schedule: the shift times plus `shiftType`
(`"Window"` or `"Remote"`) and the list of `(_id, name)` assignee pairs. -/
structure SchedBlock where
  date : String
  startTime : HM
  endTime : HM
  shiftType : String
  assignedTo : List (Nat × String)
deriving DecidableEq, Repr

/-- The times part of a schedule block. -/
def blockTimes (b : SchedBlock) : BlockTimes := ⟨b.date, b.startTime, b.endTime⟩

/-- Signed duration of a schedule block in minutes (the source divides this by
60 to obtain hours). -/
def durOfBlock (b : SchedBlock) : Int :=
  (toMinutes b.endTime : Int) - (toMinutes b.startTime : Int)

/-- `TARGET_HOURS` (15 hours) in minutes. -/
def TARGET_HOURS : Int := 15 * 60

/-- `MAX_HOURS` (20 hours) in minutes. -/
def MAX_HOURS : Int := 20 * 60

def WINDOW_MIN : Nat := 1
def WINDOW_MAX : Nat := 2
def REMOTE_MIN : Nat := 2
def REMOTE_MAX : Nat := 4

/-- Source `isConflict(shift, exam)` (minute-arithmetic version, identical in
`autoAssignFinals` of part_004 and part_005): false when the exam has no date
or the dates differ, otherwise the half-open interval overlap test
`s0 < e1 && s1 > e0` in minutes. -/
def isConflict (shift : BlockTimes) (exam : Exam) : Bool :=
  match exam.date with
  | none => false
  | some d =>
    if shift.date ≠ d then false
    else
      decide (toMinutes shift.startTime < toMinutes exam.endTime) &&
      decide (toMinutes exam.startTime < toMinutes shift.endTime)

/-- The body of the `findEligible` filter: active, commuter-before-9 rule,
projected hours within `hourCap`, and no conflicting exam of this worker. -/
def eligibleTest (finals : List Exam) (shift : BlockTimes) (hoursWorked : Nat → Int)
    (dur : Int) (hourCap : Int) (u : Worker) : Bool :=
  if !u.isActive then false
  else if u.isCommuter && decide (toMinutes shift.startTime < 9 * 60) then false
  else if decide (hourCap < hoursWorked u.id + dur) then false
  else !((finals.filter fun f => f.userId == some u.id).any fun f => isConflict shift f)

/-- Source `findEligible(users, finals, shift, hoursWorked, dur, hourCap)`
(part_004 lines 73-84). -/
def findEligible (users : List Worker) (finals : List Exam) (shift : BlockTimes)
    (hoursWorked : Nat → Int) (dur : Int) (hourCap : Int) : List Worker :=
  users.filter (eligibleTest finals shift hoursWorked dur hourCap)

/-- The sort comparator of `pickWorkers`, as the relation "compares at most 0":
workers under `TARGET_HOURS` first, then fewer hours, then smaller
least-recently-assigned stamp. -/
def pickLe (hoursWorked : Nat → Int) (lastAssigned : Nat → Nat) (a b : Worker) : Bool :=
  let ha := hoursWorked a.id
  let hb := hoursWorked b.id
  if ha < TARGET_HOURS ∧ ¬hb < TARGET_HOURS then true
  else if hb < TARGET_HOURS ∧ ¬ha < TARGET_HOURS then false
  else if ha ≠ hb then decide (ha < hb)
  else decide (lastAssigned a.id ≤ lastAssigned b.id)

/-- Insert `a` into a list after every element `b` with `le b a`; inserting the
elements of a list left to right with this yields exactly the stable sort that
the JavaScript `Array.prototype.sort` performs with a consistent comparator. -/
def insertLe {α : Type} (le : α → α → Bool) (a : α) : List α → List α
  | [] => [a]
  | b :: bs => if le b a then b :: insertLe le a bs else a :: b :: bs

/-- Stable sort by the boolean relation `le`. -/
def sortStable {α : Type} (le : α → α → Bool) (l : List α) : List α :=
  l.foldl (fun acc a => insertLe le a acc) []

/-- Source `pickWorkers(pool, hoursWorked, N, lastAssigned)` (part_004 lines
92-105): stable-sort a copy of the pool by the comparator and take the first
`N`. -/
def pickWorkers (pool : List Worker) (hoursWorked : Nat → Int) (N : Nat)
    (lastAssigned : Nat → Nat) : List Worker :=
  (sortStable (pickLe hoursWorked lastAssigned) pool).take N

/-- The fixed finals-week slice table `DAY_SLICES` of part_004. -/
def DAY_SLICES : List (String × List (HM × HM)) :=
  [ ("2025-05-12", [(⟨7,30⟩, ⟨11,30⟩), (⟨11,30⟩, ⟨15,30⟩), (⟨15,30⟩, ⟨19,30⟩)])
  , ("2025-05-13", [(⟨7,30⟩, ⟨11,30⟩), (⟨11,30⟩, ⟨15,30⟩), (⟨15,30⟩, ⟨19,30⟩)])
  , ("2025-05-14", [(⟨7,30⟩, ⟨11,30⟩), (⟨11,30⟩, ⟨15,30⟩), (⟨15,30⟩, ⟨19,30⟩)])
  , ("2025-05-15", [(⟨7,30⟩, ⟨11,30⟩), (⟨11,30⟩, ⟨15,30⟩), (⟨15,30⟩, ⟨19,30⟩)])
  , ("2025-05-16", [(⟨7,30⟩, ⟨11,30⟩), (⟨11,30⟩, ⟨15,30⟩)]) ]

/-- The day/slice pairs in the order the two nested loops of the source visit
them. -/
def slicePairs : List (String × (HM × HM)) :=
  DAY_SLICES.foldr (fun p acc => (p.2.map fun sl => (p.1, sl)) ++ acc) []

/-- The mutable run state of `autoAssignFinals`: the schedule and violation
accumulators, the per-worker tallies (total functions defaulting to 0, which is
what the pervasive `hoursWorked[u._id] || 0` reads give), and the counter of
`Date.now()` calls made so far. -/
structure St where
  schedule : List SchedBlock
  violations : List String
  hoursWorked : Nat → Int
  lastWin : Nat → Nat
  lastRem : Nat → Nat
  tick : Nat

/-- Point update of a tally function. -/
def upd {α : Type} (f : Nat → α) (k : Nat) (v : α) : Nat → α :=
  fun j => if j = k then v else f j

/-- The `forEach` after each emission: add the duration to each picked worker
and stamp the respective least-recently-assigned map with `Date.now()`. -/
def recordPicked (clock : Nat → Nat) (isWin : Bool) (dur : Int) (st : St)
    (picked : List Worker) : St :=
  picked.foldl
    (fun s u =>
      let h := upd s.hoursWorked u.id (s.hoursWorked u.id + dur)
      if isWin then
        { s with hoursWorked := h, lastWin := upd s.lastWin u.id (clock s.tick),
                 tick := s.tick + 1 }
      else
        { s with hoursWorked := h, lastRem := upd s.lastRem u.id (clock s.tick),
                 tick := s.tick + 1 })
    st

/-- The `BlockTimes` of a day slice. -/
def sliceTimes (dateStr : String) (sl : HM × HM) : BlockTimes := ⟨dateStr, sl.1, sl.2⟩

/-- Signed duration of a slice in minutes. -/
def sliceDur (sl : HM × HM) : Int := (toMinutes sl.2 : Int) - (toMinutes sl.1 : Int)

/-- The violation message pushed for an undercovered block. -/
def undercoveredMsg (kind dateStr : String) (startMin : Nat) : String :=
  kind ++ " undercovered " ++ dateStr ++ " " ++ toTime startMin

/-- The Window pool of a slice: eligible core workers under `TARGET_HOURS`, and
if fewer than `WINDOW_MIN` remain, the eligible floaters under `MAX_HOURS`
instead. -/
def windowPool (core floaters : List Worker) (finals : List Exam) (shift : BlockTimes)
    (hw : Nat → Int) (dur : Int) : List Worker :=
  let pool := findEligible core finals shift hw dur TARGET_HOURS
  if pool.length < WINDOW_MIN then findEligible floaters finals shift hw dur MAX_HOURS
  else pool

/-- The Remote pool of a slice, recomputed from the updated tallies: eligible
core workers under `TARGET_HOURS`, with the floater retry when fewer than
`REMOTE_MIN` remain. -/
def remotePool (core floaters : List Worker) (finals : List Exam) (shift : BlockTimes)
    (hw : Nat → Int) (dur : Int) : List Worker :=
  let pool := findEligible core finals shift hw dur TARGET_HOURS
  if pool.length < REMOTE_MIN then findEligible floaters finals shift hw dur MAX_HOURS
  else pool

/-- The Window half of one slice iteration of `autoAssignFinals` (part_004
lines 154-170): compute the pool, pick `Math.min(WINDOW_MAX, WINDOW_MIN)`
workers, record the violation when below `WINDOW_MIN`, emit the block, and
update tallies and stamps. -/
def windowPhase (clock : Nat → Nat) (core floaters : List Worker) (finals : List Exam)
    (st : St) (dateStr : String) (sl : HM × HM) : St :=
  let shift := sliceTimes dateStr sl
  let dur := sliceDur sl
  let pool := windowPool core floaters finals shift st.hoursWorked dur
  let win := pickWorkers pool st.hoursWorked (min WINDOW_MAX WINDOW_MIN) st.lastWin
  let viol :=
    if win.length < WINDOW_MIN then
      st.violations ++ [undercoveredMsg "Window" dateStr (toMinutes sl.1)]
    else st.violations
  let sched := st.schedule ++ [⟨dateStr, sl.1, sl.2, "Window", win.map fun u => (u.id, u.name)⟩]
  recordPicked clock true dur { st with violations := viol, schedule := sched } win

/-- The Remote half of one slice iteration of `autoAssignFinals` (part_004
lines 172-187): recompute the pool from the updated tallies, pick up to
`REMOTE_MIN` workers, record the violation when below `REMOTE_MIN`, emit the
block, and update tallies and stamps. -/
def remotePhase (clock : Nat → Nat) (core floaters : List Worker) (finals : List Exam)
    (st : St) (dateStr : String) (sl : HM × HM) : St :=
  let shift := sliceTimes dateStr sl
  let dur := sliceDur sl
  let pool := remotePool core floaters finals shift st.hoursWorked dur
  let rem := pickWorkers pool st.hoursWorked REMOTE_MIN st.lastRem
  let viol :=
    if rem.length < REMOTE_MIN then
      st.violations ++ [undercoveredMsg "Remote" dateStr (toMinutes sl.1)]
    else st.violations
  let sched := st.schedule ++ [⟨dateStr, sl.1, sl.2, "Remote", rem.map fun u => (u.id, u.name)⟩]
  recordPicked clock false dur { st with violations := viol, schedule := sched } rem

/-- One full slice iteration: Window then Remote. -/
def processSlice (clock : Nat → Nat) (core floaters : List Worker) (finals : List Exam)
    (st : St) (dateStr : String) (sl : HM × HM) : St :=
  remotePhase clock core floaters finals
    (windowPhase clock core floaters finals st dateStr sl) dateStr sl

/-- Can the balance pass add worker `uid` to block `b`?  This is the
conjunction of the four skip tests of the scan in `balanceHours` (part_004
lines 115-124): a Remote block below `REMOTE_MAX` occupancy that does not
already carry the worker and conflicts with none of their exams. -/
def addable (finals : List Exam) (uid : Nat) (b : SchedBlock) : Bool :=
  b.shiftType == "Remote" &&
  decide (b.assignedTo.length < REMOTE_MAX) &&
  !(b.assignedTo.any fun x => x.1 == uid) &&
  !(finals.any fun f => f.userId == some uid && isConflict (blockTimes b) f)

/-- The inner scan of `balanceHours` for one under-target worker: walk the
schedule in order, break once `need ≤ 0`, and push the worker onto every
`addable` block met before that, updating the tally and the remaining need. -/
def balanceScan (finals : List Exam) (u : Worker) :
    List SchedBlock → Int → (Nat → Int) → List SchedBlock × (Nat → Int)
  | [], _, hw => ([], hw)
  | b :: rest, need, hw =>
    if need ≤ 0 then (b :: rest, hw)
    else if addable finals u.id b then
      let d := durOfBlock b
      let r := balanceScan finals u rest (need - d) (upd hw u.id (hw u.id + d))
      ({ b with assignedTo := b.assignedTo ++ [(u.id, u.name)] } :: r.1, r.2)
    else
      let r := balanceScan finals u rest need hw
      (b :: r.1, r.2)

/-- Source `balanceHours(schedule, coreUsers, hoursWorked, finals)` (part_004
lines 111-132): for each core user whose initial tally is under
`TARGET_HOURS`, scan the schedule with `balanceScan`, starting from the need
`TARGET_HOURS` minus their tally at that moment. -/
def balanceHours (schedule : List SchedBlock) (coreUsers : List Worker)
    (hoursWorked : Nat → Int) (finals : List Exam) : List SchedBlock × (Nat → Int) :=
  (coreUsers.filter fun u => decide (hoursWorked u.id < TARGET_HOURS)).foldl
    (fun p u => balanceScan finals u p.1 (TARGET_HOURS - p.2 u.id) p.2)
    (schedule, hoursWorked)

/-- The summary object built at the end of `autoAssignFinals`; the
`underworked` entries carry the raw minute tally (the source formats the hour
value with `toFixed`, a presentational step). -/
structure Summary where
  totalBlocks : Nat
  violations : List String
  underworked : List (String × Int)
  allConstraintsMet : Bool
deriving DecidableEq, Repr

/-- The value returned by `autoAssignFinals`. -/
structure SchedulerResult where
  summary : Summary
  schedule : List SchedBlock
deriving DecidableEq, Repr

/-- `User.find({ isActive: true })`: the active workers of the roster, in
roster order. -/
def activeUsers (roster : List Worker) : List Worker :=
  roster.filter fun u => u.isActive

/-- The core (non-floater) active workers. -/
def coreOf (roster : List Worker) : List Worker :=
  (activeUsers roster).filter fun u => !u.isFloater

/-- The active floaters. -/
def floatersOf (roster : List Worker) : List Worker :=
  (activeUsers roster).filter fun u => u.isFloater

/-- The empty starting state (every tally 0, no `Date.now()` calls yet). -/
def initialState : St := ⟨[], [], fun _ => 0, fun _ => 0, fun _ => 0, 0⟩

/-- The main double loop of `autoAssignFinals` over `DAY_SLICES`. -/
def mainPass (clock : Nat → Nat) (core floaters : List Worker) (finals : List Exam) : St :=
  slicePairs.foldl (fun s p => processSlice clock core floaters finals s p.1 p.2)
    initialState

/-- The full run state after the main pass and the balance pass. -/
def autoAssignState (roster : List Worker) (finals : List Exam) (clock : Nat → Nat) : St :=
  let core := coreOf roster
  let floaters := floatersOf roster
  let st := mainPass clock core floaters finals
  let bal := balanceHours st.schedule core st.hoursWorked finals
  { st with schedule := bal.1, hoursWorked := bal.2 }

/-- Source `autoAssignFinals` (part_004 lines 135-208): run the main pass and
the balance pass and package the summary. -/
def autoAssignFinals (roster : List Worker) (finals : List Exam) (clock : Nat → Nat) :
    SchedulerResult :=
  let st := autoAssignState roster finals clock
  let core := coreOf roster
  { summary :=
      { totalBlocks := st.schedule.length
        violations := st.violations
        underworked :=
          (core.filter fun u => decide (st.hoursWorked u.id < TARGET_HOURS)).map
            fun u => (u.name, st.hoursWorked u.id)
        allConstraintsMet := st.violations.length == 0 }
    schedule := st.schedule }

/-- Timestamp (in minutes) of the Date object built from a date string and a
wall-clock time: an abstract per-date base (the numbering of calendar days)
times the minutes of a day, plus the minutes from midnight.  The theorems about
same-date comparisons never need the base evaluated. -/
def dateTimestamp (dayBase : String → Nat) (d : String) (t : HM) : Nat :=
  dayBase d * 1440 + toMinutes t

/-- Source `isConflict(final, shift)` of `autoAssignShifts` (part_004 lines
216-227): the three-disjunct boundary test on Date-object timestamps. -/
def isConflictDates (dayBase : String → Nat) (finalEx shift : BlockTimes) : Bool :=
  let f0 := dateTimestamp dayBase finalEx.date finalEx.startTime
  let f1 := dateTimestamp dayBase finalEx.date finalEx.endTime
  let s0 := dateTimestamp dayBase shift.date shift.startTime
  let s1 := dateTimestamp dayBase shift.date shift.endTime
  (decide (f0 ≤ s0) && decide (s0 < f1)) ||
  (decide (f0 < s1) && decide (s1 ≤ f1)) ||
  (decide (s0 ≤ f0) && decide (f1 ≤ s1))

namespace Stage

/-- Source `findEligible(users, finals, shift, hoursWorked, dur, minStage)` of
the stage-based variant (part_005 lines 94-102): the same four tests, with the
hour cap `MAX_HOURS` at stage 2 and `TARGET_HOURS` otherwise. -/
def findEligible (users : List Worker) (finals : List Exam) (shift : BlockTimes)
    (hoursWorked : Nat → Int) (dur : Int) (minStage : Nat) : List Worker :=
  users.filter (eligibleTest finals shift hoursWorked dur
    (if minStage == 2 then MAX_HOURS else TARGET_HOURS))

/-- The combined eligible list of one block iteration (part_005 lines
176-179): stage-1 core workers, falling back to stage 2 when none qualify,
followed by the stage-2 floaters. -/
def allEligible (core floaters : List Worker) (finals : List Exam) (blk : BlockTimes)
    (hw : Nat → Int) (dur : Int) : List Worker :=
  let ec := findEligible core finals blk hw dur 1
  let ec := if ec.length == 0 then findEligible core finals blk hw dur 2 else ec
  ec ++ findEligible floaters finals blk hw dur 2

/-- Does schedule entry `s` describe the same date, start minute and shift type
as the block being processed? -/
def sameSlot (ty : String) (s : SchedBlock) (blk : BlockTimes) : Bool :=
  s.shiftType == ty && s.date == blk.date &&
  toMinutes s.startTime == toMinutes blk.startTime

/-- The Window pick of one block iteration (part_005 lines 184-202).  The
source computes the assignable count with JavaScript numbers; a negative
count there makes `slice` return the empty list, which truncated `Nat`
subtraction reproduces. -/
def windowPicked (schedule : List SchedBlock) (core floaters : List Worker)
    (finals : List Exam) (blk : BlockTimes) (hw : Nat → Int) (dur : Int)
    (lastWin : Nat → Nat) : List Worker :=
  let elig := allEligible core floaters finals blk hw dur
  let cnt := (schedule.filter fun s => sameSlot "Window" s blk).length
  let needed := WINDOW_MIN - cnt
  let canAssign := min (WINDOW_MAX - cnt) elig.length
  let num := min canAssign needed
  let welig := elig.filter fun u =>
    !(schedule.any fun s => sameSlot "Window" s blk &&
        (s.assignedTo.any fun a => a.1 == u.id))
  pickWorkers welig hw num lastWin

/-- The Remote pick of one block iteration (part_005 lines 216-237): the pool
excludes the Window picks of the same iteration and anyone already on a Remote
entry of this slot. -/
def remotePicked (schedule : List SchedBlock) (core floaters : List Worker)
    (finals : List Exam) (blk : BlockTimes) (hw : Nat → Int) (dur : Int)
    (lastRem : Nat → Nat) (windowWorkers : List Worker) : List Worker :=
  let elig := allEligible core floaters finals blk hw dur
  let cnt := (schedule.filter fun s => sameSlot "Remote" s blk).length
  let needed := REMOTE_MIN - cnt
  let canAssign := min (REMOTE_MAX - cnt) (elig.length - windowWorkers.length)
  let num := min canAssign needed
  let relig := elig.filter fun u =>
    !(windowWorkers.any fun ww => ww.id == u.id) &&
    !(schedule.any fun s => sameSlot "Remote" s blk &&
        (s.assignedTo.any fun a => a.1 == u.id))
  pickWorkers relig hw num lastRem

/-- One block iteration of the stage-based main loop (part_005 lines
172-250): Window pick, violation check, emission and bookkeeping, then the
same for Remote. -/
def processBlock (clock : Nat → Nat) (core floaters : List Worker) (finals : List Exam)
    (st : St) (blk : BlockTimes) : St :=
  let dur := (toMinutes blk.endTime : Int) - (toMinutes blk.startTime : Int)
  let win := windowPicked st.schedule core floaters finals blk st.hoursWorked dur st.lastWin
  let cntW := (st.schedule.filter fun s => sameSlot "Window" s blk).length
  let violW :=
    if win.length < WINDOW_MIN - cntW then
      st.violations ++ ["Window undercovered " ++ blk.date ++ " " ++
        toTime (toMinutes blk.startTime)]
    else st.violations
  let schedW := st.schedule ++
    [⟨blk.date, blk.startTime, blk.endTime, "Window", win.map fun u => (u.id, u.name)⟩]
  let stW := recordPicked clock true dur
    { st with violations := violW, schedule := schedW } win
  let rem := remotePicked stW.schedule core floaters finals blk stW.hoursWorked dur
    stW.lastRem win
  let cntR := (stW.schedule.filter fun s => sameSlot "Remote" s blk).length
  let violR :=
    if rem.length < REMOTE_MIN - cntR then
      stW.violations ++ ["Remote undercovered " ++ blk.date ++ " " ++
        toTime (toMinutes blk.startTime)]
    else stW.violations
  let schedR := stW.schedule ++
    [⟨blk.date, blk.startTime, blk.endTime, "Remote", rem.map fun u => (u.id, u.name)⟩]
  recordPicked clock false dur { stW with violations := violR, schedule := schedR } rem

end Stage

/-- One step of the main-pass fold paired with the check that the Window pool
and the (recomputed) Remote pool of this slice reach the per-kind minimum
staffing. -/
def poolsStep (clock : Nat → Nat) (core floaters : List Worker) (finals : List Exam)
    (q : St × Bool) (p : String × (HM × HM)) : St × Bool :=
  let shift := sliceTimes p.1 p.2
  let dur := sliceDur p.2
  let okW := decide (WINDOW_MIN ≤ (windowPool core floaters finals shift q.1.hoursWorked dur).length)
  let stW := windowPhase clock core floaters finals q.1 p.1 p.2
  let okR := decide (REMOTE_MIN ≤ (remotePool core floaters finals shift stW.hoursWorked dur).length)
  (remotePhase clock core floaters finals stW p.1 p.2, q.2 && (okW && okR))

/-- Did every slice of the run offer a pool (after the hour-cap filtering and
the floater retry) of at least the per-kind minimum staffing? -/
def poolsAdequate (roster : List Worker) (finals : List Exam) (clock : Nat → Nat) : Bool :=
  (slicePairs.foldl (poolsStep clock (coreOf roster) (floatersOf roster) finals)
    (initialState, true)).2

/-- A clock whose `Date.now()` readings are all equal. -/
def clock0 : Nat → Nat := fun _ => 0

/-- A clock whose `Date.now()` readings strictly increase. -/
def clockInc : Nat → Nat := fun n => n + 1

/-- A roster holding one active commuter core worker. -/
def commuterRoster : List Worker := [⟨1, "C", true, true, false⟩]

/-- A roster of two active non-commuter core workers. -/
def pairRoster : List Worker :=
  [⟨1, "A", true, false, false⟩, ⟨2, "B", true, false, false⟩]

/-- A roster of `n` active non-commuter core workers with ids 1..n. -/
def plainRoster (n : Nat) : List Worker :=
  (List.range n).map fun i => ⟨i + 1, "w" ++ toString (i + 1), true, false, false⟩

/-- The three-worker roster of the clock-dependence counterexample: a commuter
and two plain workers. -/
def clockRoster : List Worker :=
  [⟨1, "X", true, true, false⟩, ⟨2, "Y", true, false, false⟩, ⟨3, "W", true, false, false⟩]

/-- Worker 3 of `clockRoster` has an exam covering the third Monday slice. -/
def clockFinals : List Exam := [⟨some 3, some "2025-05-12", ⟨15,30⟩, ⟨19,30⟩⟩]

/-- The workers of the roster that are available for a block when hour caps
are ignored: active, commuter rule satisfied, and no conflicting exam.  This
is the relaxed pool the coverage claim quantifies over. -/
def availableWorkers (roster : List Worker) (finals : List Exam) (shift : BlockTimes) :
    List Worker :=
  (activeUsers roster).filter fun u =>
    (!(u.isCommuter && decide (toMinutes shift.startTime < 9 * 60))) &&
    !((finals.filter fun f => f.userId == some u.id).any fun f => isConflict shift f)

/-- Does a block meet the minimum staffing of its kind? -/
def minStaffOk (b : SchedBlock) : Prop :=
  (b.shiftType = "Window" → WINDOW_MIN ≤ b.assignedTo.length) ∧
  (b.shiftType = "Remote" → REMOTE_MIN ≤ b.assignedTo.length)

/-- Does the violations list report this block whenever it is below its
minimum staffing? -/
def reportOk (viol : List String) (b : SchedBlock) : Prop :=
  (b.shiftType = "Window" → b.assignedTo.length < WINDOW_MIN →
    undercoveredMsg "Window" b.date (toMinutes b.startTime) ∈ viol) ∧
  (b.shiftType = "Remote" → b.assignedTo.length < REMOTE_MIN →
    undercoveredMsg "Remote" b.date (toMinutes b.startTime) ∈ viol)

/-- Lemmas about the stable sort. -/
theorem insertLe_perm {α : Type} (le : α → α → Bool) (a : α) :
    ∀ l : List α, (insertLe le a l).Perm (a :: l)
  | [] => List.Perm.refl _
  | b :: bs => by
    unfold insertLe
    by_cases h : le b a = true
    · rw [if_pos h]
      exact ((insertLe_perm le a bs).cons b).trans (List.Perm.swap a b bs)
    · rw [if_neg h]

theorem foldl_insertLe_perm {α : Type} (le : α → α → Bool) :
    ∀ (l acc : List α), (l.foldl (fun acc a => insertLe le a acc) acc).Perm (acc ++ l)
  | [], acc => by simp
  | a :: l, acc => by
    simp only [List.foldl_cons]
    refine (foldl_insertLe_perm le l (insertLe le a acc)).trans ?_
    refine ((insertLe_perm le a acc).append_right l).trans ?_
    simpa using (List.perm_middle).symm

theorem sortStable_perm {α : Type} (le : α → α → Bool) (l : List α) :
    (sortStable le l).Perm l := by
  simpa [sortStable] using foldl_insertLe_perm le l []

theorem pickWorkers_mem (pool : List Worker) (hw : Nat → Int) (N : Nat)
    (last : Nat → Nat) (u : Worker) (h : u ∈ pickWorkers pool hw N last) : u ∈ pool :=
  (sortStable_perm (pickLe hw last) pool).mem_iff.mp (List.take_subset N _ h)

theorem pickWorkers_length (pool : List Worker) (hw : Nat → Int) (N : Nat)
    (last : Nat → Nat) : (pickWorkers pool hw N last).length = min N pool.length := by
  simp [pickWorkers, (sortStable_perm (pickLe hw last) pool).length_eq]

theorem pickWorkers_nodup_ids (pool : List Worker) (hw : Nat → Int) (N : Nat)
    (last : Nat → Nat) (h : (pool.map Worker.id).Nodup) :
    ((pickWorkers pool hw N last).map Worker.id).Nodup := by
  have hperm : ((sortStable (pickLe hw last) pool).map Worker.id).Perm (pool.map Worker.id) :=
    (sortStable_perm (pickLe hw last) pool).map Worker.id
  have hs : ((sortStable (pickLe hw last) pool).map Worker.id).Nodup :=
    (hperm.nodup_iff).mpr h
  have : ((pickWorkers pool hw N last).map Worker.id).Sublist
      ((sortStable (pickLe hw last) pool).map Worker.id) := by
    simpa [pickWorkers, List.map_take] using
      (List.take_sublist N ((sortStable (pickLe hw last) pool).map Worker.id))
  exact hs.sublist this

/-- Characterisation of the `findEligible` filter body. -/
theorem eligibleTest_eq_true (finals : List Exam) (shift : BlockTimes)
    (hw : Nat → Int) (dur : Int) (cap : Int) (u : Worker) :
    eligibleTest finals shift hw dur cap u = true ↔
      u.isActive = true ∧
      (u.isCommuter = true → 9 * 60 ≤ toMinutes shift.startTime) ∧
      hw u.id + dur ≤ cap ∧
      ∀ f ∈ finals, f.userId = some u.id → isConflict shift f = false := by
  unfold eligibleTest
  cases hA : u.isActive <;> cases hC : u.isCommuter <;>
    by_cases hS : toMinutes shift.startTime < 9 * 60 <;>
      by_cases hH : cap < hw u.id + dur <;>
        simp [hA, hC, hS, hH, not_lt.mp, List.any_eq_true, List.mem_filter,
          not_lt, le_of_not_lt, Bool.not_eq_true]

theorem mem_findEligible (users : List Worker) (finals : List Exam) (shift : BlockTimes)
    (hw : Nat → Int) (dur : Int) (cap : Int) (w : Worker) :
    w ∈ findEligible users finals shift hw dur cap ↔
      w ∈ users ∧ w.isActive = true ∧
      (w.isCommuter = true → 9 * 60 ≤ toMinutes shift.startTime) ∧
      hw w.id + dur ≤ cap ∧
      ∀ f ∈ finals, f.userId = some w.id → isConflict shift f = false := by
  rw [findEligible, List.mem_filter, eligibleTest_eq_true]

/-- C4: the minute-arithmetic conflict predicate returns true exactly when the
two dates denote the same calendar day and the intervals overlap in the
half-open sense, start0 < end1 and start1 > end0, in minutes from midnight. -/
theorem C4_isConflict_spec (shift : BlockTimes) (exam : Exam) (d : String)
    (hd : exam.date = some d) :
    isConflict shift exam = true ↔
      shift.date = d ∧
      toMinutes shift.startTime < toMinutes exam.endTime ∧
      toMinutes exam.startTime < toMinutes shift.endTime := by
  unfold isConflict
  rw [hd]
  by_cases h : shift.date = d
  · simp [h]
  · simp [h]

/-- Witness for C4 at a concrete conflicting shift/exam pair. -/
theorem C4_isConflict_spec_witness :
    (Exam.date ⟨none, some "2025-05-12", ⟨13,0⟩, ⟨15,0⟩⟩ = some "2025-05-12") ∧
    (isConflict ⟨"2025-05-12", ⟨12,0⟩, ⟨14,0⟩⟩ ⟨none, some "2025-05-12", ⟨13,0⟩, ⟨15,0⟩⟩ = true ↔
      ("2025-05-12" : String) = "2025-05-12" ∧
      toMinutes ⟨12,0⟩ < toMinutes ⟨15,0⟩ ∧
      toMinutes ⟨13,0⟩ < toMinutes ⟨14,0⟩) :=
  ⟨rfl, C4_isConflict_spec ⟨"2025-05-12", ⟨12,0⟩, ⟨14,0⟩⟩
    ⟨none, some "2025-05-12", ⟨13,0⟩, ⟨15,0⟩⟩ "2025-05-12" rfl⟩

/-- C10: on a shared calendar date, for proper intervals (start before end),
the Date-object boundary-case conflict predicate used by autoAssignShifts
agrees with the minute-arithmetic conflict predicate. -/
theorem C10_conflict_predicates_agree (dayBase : String → Nat) (d : String)
    (s0 s1 e0 e1 : HM)
    (hs : toMinutes s0 < toMinutes s1) (he : toMinutes e0 < toMinutes e1) :
    isConflictDates dayBase ⟨d, e0, e1⟩ ⟨d, s0, s1⟩ =
      isConflict ⟨d, s0, s1⟩ ⟨none, some d, e0, e1⟩ := by
  rw [Bool.eq_iff_iff]
  unfold isConflictDates isConflict dateTimestamp
  simp only [Bool.or_eq_true, Bool.and_eq_true, decide_eq_true_eq, ne_eq,
    not_true_eq_false, if_false]
  simp
  omega

/-- Witness for C10 at a concrete same-date pair. -/
theorem C10_conflict_predicates_agree_witness :
    toMinutes ⟨12,0⟩ < toMinutes ⟨14,0⟩ ∧ toMinutes ⟨13,0⟩ < toMinutes ⟨15,0⟩ ∧
    isConflictDates (fun _ => 0) ⟨"2025-05-12", ⟨13,0⟩, ⟨15,0⟩⟩
        ⟨"2025-05-12", ⟨12,0⟩, ⟨14,0⟩⟩ =
      isConflict ⟨"2025-05-12", ⟨12,0⟩, ⟨14,0⟩⟩ ⟨none, some "2025-05-12", ⟨13,0⟩, ⟨15,0⟩⟩ :=
  ⟨by decide, by decide,
    C10_conflict_predicates_agree (fun _ => 0) "2025-05-12" ⟨12,0⟩ ⟨14,0⟩ ⟨13,0⟩ ⟨15,0⟩
      (by decide) (by decide)⟩

/-- C1: a worker belongs to the eligible pool of `findEligible` exactly when
they are active, satisfy the commuter-before-9 rule, keep their projected
hours within the pass cap, and have no conflicting exam; and the retry pool
(the floaters under MAX_HOURS) is used exactly when the first pool (core under
TARGET_HOURS) is smaller than the minimum staffing of the shift kind. -/
theorem C1_findEligible_pool_and_retry (users core floaters : List Worker)
    (finals : List Exam) (shift : BlockTimes) (hw : Nat → Int) (dur cap : Int) :
    (∀ w, w ∈ findEligible users finals shift hw dur cap ↔
        w ∈ users ∧ w.isActive = true ∧
        (w.isCommuter = true → 9 * 60 ≤ toMinutes shift.startTime) ∧
        hw w.id + dur ≤ cap ∧
        ∀ f ∈ finals, f.userId = some w.id → isConflict shift f = false) ∧
    ((findEligible core finals shift hw dur TARGET_HOURS).length < WINDOW_MIN ∧
        windowPool core floaters finals shift hw dur =
          findEligible floaters finals shift hw dur MAX_HOURS ∨
      WINDOW_MIN ≤ (findEligible core finals shift hw dur TARGET_HOURS).length ∧
        windowPool core floaters finals shift hw dur =
          findEligible core finals shift hw dur TARGET_HOURS) ∧
    ((findEligible core finals shift hw dur TARGET_HOURS).length < REMOTE_MIN ∧
        remotePool core floaters finals shift hw dur =
          findEligible floaters finals shift hw dur MAX_HOURS ∨
      REMOTE_MIN ≤ (findEligible core finals shift hw dur TARGET_HOURS).length ∧
        remotePool core floaters finals shift hw dur =
          findEligible core finals shift hw dur TARGET_HOURS) := by
  refine ⟨fun w => mem_findEligible users finals shift hw dur cap w, ?_, ?_⟩
  · unfold windowPool
    by_cases h : (findEligible core finals shift hw dur TARGET_HOURS).length < WINDOW_MIN
    · exact Or.inl ⟨h, by rw [if_pos h]⟩
    · exact Or.inr ⟨not_lt.mp h, by rw [if_neg h]⟩
  · unfold remotePool
    by_cases h : (findEligible core finals shift hw dur TARGET_HOURS).length < REMOTE_MIN
    · exact Or.inl ⟨h, by rw [if_pos h]⟩
    · exact Or.inr ⟨not_lt.mp h, by rw [if_neg h]⟩

/-- C2 exhibit (code bug): on a roster holding a single active commuter core
worker and no exams, the returned schedule assigns the commuter to a block
starting 07:30, before 09:00 — the balance pass adds commuters to early Remote
blocks without the commuter check. -/
theorem C2_commuter_assigned_before_nine :
    ∃ u ∈ commuterRoster, u.isCommuter = true ∧
      ∃ b ∈ (autoAssignFinals commuterRoster [] clock0).schedule,
        toMinutes b.startTime < 9 * 60 ∧ (u.id, u.name) ∈ b.assignedTo := by
  decide

/-- C5 counterexample: with two plain core workers and no exams, the first
slice of the returned schedule has Window assignees `[1]` and Remote assignees
`[2, 1]` — worker 1 sits on both blocks of the same slice, so the sets are not
disjoint and the Remote pool did not exclude the Window pick. -/
theorem C5_window_remote_overlap_cx :
    ((autoAssignFinals pairRoster [] clock0).schedule.take 2).map
        (fun b => (b.shiftType, b.assignedTo.map Prod.fst)) =
      [("Window", [1]), ("Remote", [2, 1])] := by
  decide

/-- C5 (amended): in the stage-based variant of the greedy baseline, every
worker the Remote pick returns is absent from the Window picks of the same
block iteration, because the Remote pool filters them out. -/
theorem C5_stage_disjoint (schedule : List SchedBlock) (core floaters : List Worker)
    (finals : List Exam) (blk : BlockTimes) (hw : Nat → Int) (dur : Int)
    (lastRem : Nat → Nat) (windowWorkers : List Worker) :
    ((Stage.remotePicked schedule core floaters finals blk hw dur lastRem
        windowWorkers).all fun v => !(windowWorkers.any fun w => w.id == v.id)) = true := by
  rw [List.all_eq_true]
  intro v hv
  have hv2 : v ∈ (Stage.allEligible core floaters finals blk hw dur).filter fun u =>
      (!(windowWorkers.any fun ww => ww.id == u.id)) &&
      !(schedule.any fun s => Stage.sameSlot "Remote" s blk &&
          (s.assignedTo.any fun a => a.1 == u.id)) :=
    pickWorkers_mem _ _ _ _ _ hv
  rw [List.mem_filter] at hv2
  have h2 := hv2.2
  rw [Bool.and_eq_true] at h2
  exact h2.1

/-- C6 counterexample: with two plain core workers and no exams, every slice
has both workers available once hour caps are ignored (at least the Window and
Remote minimum staffing), yet the greedy baseline reports undercoverage
violations, because the hour caps empty the usable pools on later slices. -/
theorem C6_relaxed_coverage_cx :
    (slicePairs.all fun p =>
        decide (WINDOW_MIN ≤ (availableWorkers pairRoster [] (sliceTimes p.1 p.2)).length) &&
        decide (REMOTE_MIN ≤ (availableWorkers pairRoster [] (sliceTimes p.1 p.2)).length)) = true
    ∧ (autoAssignFinals pairRoster [] clock0).summary.violations ≠ [] :=
  ⟨by decide, by decide⟩

/-- C9 counterexample: the run depends on the wall clock — an all-equal
Date.now() sequence and a strictly increasing one produce different results on
the same roster and exam list (the least-recently-assigned tie-breaker orders
tied workers differently). -/
theorem C9_clock_dependence_cx :
    ((autoAssignFinals clockRoster clockFinals clock0).schedule.map fun b =>
        b.assignedTo.map Prod.fst) ≠
      ((autoAssignFinals clockRoster clockFinals clockInc).schedule.map fun b =>
        b.assignedTo.map Prod.fst) := by
  decide

/-- C9 (amended): the greedy baseline is deterministic as a function of the
roster, the exam list and the observed Date.now() sequence: two runs that read
the same clock values produce identical results. -/
theorem C9_deterministic_given_clock (roster : List Worker) (finals : List Exam)
    (c1 c2 : Nat → Nat) (h : ∀ n, c1 n = c2 n) :
    autoAssignFinals roster finals c1 = autoAssignFinals roster finals c2 := by
  rw [funext h]

/-- Witness for the amended C9 determinism at a concrete input. -/
theorem C9_deterministic_given_clock_witness :
    autoAssignFinals clockRoster clockFinals clock0 =
      autoAssignFinals clockRoster clockFinals clock0 :=
  C9_deterministic_given_clock clockRoster clockFinals clock0 clock0 (fun _ => rfl)

/-- Appending an assignee cannot turn an unaddable block addable. -/
theorem addable_push (finals : List Exam) (v : Nat) (b : SchedBlock) (x : Nat × String)
    (h : addable finals v { b with assignedTo := b.assignedTo ++ [x] } = true) :
    addable finals v b = true := by
  unfold addable blockTimes at h ⊢
  simp only [Bool.and_eq_true, decide_eq_true_eq, Bool.not_eq_true', List.any_eq_false,
    List.length_append, List.length_cons, List.length_nil, List.mem_append] at h ⊢
  obtain ⟨⟨⟨h1, h2⟩, h3⟩, h4⟩ := h
  exact ⟨⟨⟨h1, by omega⟩, fun a ha => h3 a (Or.inl ha)⟩, h4⟩

/-- A block that already carries the worker is not addable for them. -/
theorem addable_push_self (finals : List Exam) (u : Worker) (b : SchedBlock) :
    addable finals u.id { b with assignedTo := b.assignedTo ++ [(u.id, u.name)] } = false := by
  unfold addable
  simp [List.any_append]

/-- The scan changes no tally entry other than the one of the scanned worker. -/
theorem balanceScan_hw_other (finals : List Exam) (u : Worker) (k : Nat) (hk : k ≠ u.id) :
    ∀ (blocks : List SchedBlock) (need : Int) (hw : Nat → Int),
      (balanceScan finals u blocks need hw).2 k = hw k
  | [], _, _ => rfl
  | b :: rest, need, hw => by
    unfold balanceScan
    by_cases h0 : need ≤ 0
    · rw [if_pos h0]
    · rw [if_neg h0]
      by_cases hA : addable finals u.id b = true
      · rw [if_pos hA]
        simp only
        rw [balanceScan_hw_other finals u k hk rest _ _]
        simp [upd, hk]
      · rw [if_neg hA]
        simp only
        rw [balanceScan_hw_other finals u k hk rest _ _]

/-- After scanning for a worker, either their tally reached `TARGET_HOURS` or
no block of the resulting schedule is addable for them. -/
theorem balanceScan_post (finals : List Exam) (u : Worker) :
    ∀ (blocks : List SchedBlock) (need : Int) (hw : Nat → Int),
      need = TARGET_HOURS - hw u.id →
      TARGET_HOURS ≤ (balanceScan finals u blocks need hw).2 u.id ∨
      ∀ b ∈ (balanceScan finals u blocks need hw).1, addable finals u.id b = false
  | [], need, hw, _ => Or.inr (by simp [balanceScan])
  | b :: rest, need, hw, hneed => by
    unfold balanceScan
    by_cases h0 : need ≤ 0
    · rw [if_pos h0]
      exact Or.inl (by show TARGET_HOURS ≤ hw u.id; omega)
    · rw [if_neg h0]
      by_cases hA : addable finals u.id b = true
      · rw [if_pos hA]
        simp only
        have hrec := balanceScan_post finals u rest (need - durOfBlock b)
          (upd hw u.id (hw u.id + durOfBlock b)) (by simp [upd]; omega)
        rcases hrec with h | h
        · exact Or.inl h
        · refine Or.inr fun b2 hb2 => ?_
          rcases List.mem_cons.mp hb2 with rfl | hb2
          · exact addable_push_self finals u b
          · exact h b2 hb2
      · rw [if_neg hA]
        simp only
        have hrec := balanceScan_post finals u rest need hw hneed
        rcases hrec with h | h
        · exact Or.inl h
        · refine Or.inr fun b2 hb2 => ?_
          rcases List.mem_cons.mp hb2 with rfl | hb2
          · exact Bool.eq_false_iff.mpr hA
          · exact h b2 hb2

/-- Blocks unaddable for an id stay unaddable after any scan for any worker. -/
theorem not_addable_after_scan (finals : List Exam) (u : Worker) (v : Nat) :
    ∀ (blocks : List SchedBlock) (need : Int) (hw : Nat → Int),
      (∀ b ∈ blocks, addable finals v b = false) →
      ∀ b ∈ (balanceScan finals u blocks need hw).1, addable finals v b = false
  | [], _, _, _ => by simp [balanceScan]
  | b :: rest, need, hw, h => by
    unfold balanceScan
    by_cases h0 : need ≤ 0
    · rw [if_pos h0]
      exact h
    · rw [if_neg h0]
      by_cases hA : addable finals u.id b = true
      · rw [if_pos hA]
        simp only
        intro b2 hb2
        rcases List.mem_cons.mp hb2 with rfl | hb2
        · refine Bool.eq_false_iff.mpr fun hcon => ?_
          have := addable_push finals v b (u.id, u.name) hcon
          rw [h b (List.mem_cons_self b rest)] at this
          exact Bool.false_ne_true this
        · exact not_addable_after_scan finals u v rest _ _
            (fun c hc => h c (List.mem_cons_of_mem b hc)) b2 hb2
      · rw [if_neg hA]
        simp only
        intro b2 hb2
        rcases List.mem_cons.mp hb2 with rfl | hb2
        · exact h b2 (List.mem_cons_self b2 rest)
        · exact not_addable_after_scan finals u v rest _ _
            (fun c hc => h c (List.mem_cons_of_mem b hc)) b2 hb2

/-- A scan over a schedule with no addable block leaves everything unchanged. -/
theorem balanceScan_noop (finals : List Exam) (u : Worker) :
    ∀ (blocks : List SchedBlock) (need : Int) (hw : Nat → Int),
      (∀ b ∈ blocks, addable finals u.id b = false) →
      balanceScan finals u blocks need hw = (blocks, hw)
  | [], need, hw, _ => rfl
  | b :: rest, need, hw, h => by
    unfold balanceScan
    by_cases h0 : need ≤ 0
    · rw [if_pos h0]
    · rw [if_neg h0]
      have hA : ¬addable finals u.id b = true := by
        rw [h b (List.mem_cons_self b rest)]
        exact Bool.false_ne_true
      rw [if_neg hA]
      rw [balanceScan_noop finals u rest need hw
        (fun c hc => h c (List.mem_cons_of_mem b hc))]

/-- The step function of the balance fold. -/
theorem balanceFold_hw_other (finals : List Exam) (k : Nat) :
    ∀ (us : List Worker) (p : List SchedBlock × (Nat → Int)),
      (∀ w ∈ us, w.id ≠ k) →
      (us.foldl (fun p u => balanceScan finals u p.1 (TARGET_HOURS - p.2 u.id) p.2) p).2 k = p.2 k
  | [], p, _ => rfl
  | u :: rest, p, h => by
    rw [List.foldl_cons]
    rw [balanceFold_hw_other finals k rest _ (fun w hw => h w (List.mem_cons_of_mem u hw))]
    exact balanceScan_hw_other finals u k
      (Ne.symm (h u (List.mem_cons_self u rest))) _ _ _

/-- Blocks unaddable for an id stay unaddable through the whole balance fold. -/
theorem not_addable_after_fold (finals : List Exam) (v : Nat) :
    ∀ (us : List Worker) (p : List SchedBlock × (Nat → Int)),
      (∀ b ∈ p.1, addable finals v b = false) →
      ∀ b ∈ (us.foldl (fun p u => balanceScan finals u p.1 (TARGET_HOURS - p.2 u.id) p.2) p).1,
        addable finals v b = false
  | [], p, h => h
  | u :: rest, p, h => by
    rw [List.foldl_cons]
    exact not_addable_after_fold finals v rest _
      (not_addable_after_scan finals u v p.1 _ p.2 h)

/-- After the balance fold, every processed worker whose tally is still under
target has no addable block left in the resulting schedule. -/
theorem balanceFold_post (finals : List Exam) :
    ∀ (us : List Worker) (p : List SchedBlock × (Nat → Int)) (u : Worker), u ∈ us →
      (us.foldl (fun p u => balanceScan finals u p.1 (TARGET_HOURS - p.2 u.id) p.2) p).2 u.id
          < TARGET_HOURS →
      ∀ b ∈ (us.foldl (fun p u => balanceScan finals u p.1 (TARGET_HOURS - p.2 u.id) p.2) p).1,
        addable finals u.id b = false
  | [], p, u, hu, _ => absurd hu (List.not_mem_nil u)
  | v :: rest, p, u, hu, hlt => by
    rw [List.foldl_cons] at hlt ⊢
    rcases List.mem_cons.mp hu with rfl | hurest
    · by_cases hsame : ∃ w ∈ rest, w.id = u.id
      · obtain ⟨w, hw, hwid⟩ := hsame
        have := balanceFold_post finals rest _ w hw (by rw [hwid]; exact hlt)
        rw [hwid] at this
        exact this
      · push_neg at hsame
        have hfix : (rest.foldl (fun p u => balanceScan finals u p.1 (TARGET_HOURS - p.2 u.id) p.2)
            (balanceScan finals u p.1 (TARGET_HOURS - p.2 u.id) p.2)).2 u.id =
            (balanceScan finals u p.1 (TARGET_HOURS - p.2 u.id) p.2).2 u.id :=
          balanceFold_hw_other finals u.id rest _ hsame
        have hpost := balanceScan_post finals u p.1 (TARGET_HOURS - p.2 u.id) p.2 rfl
        rcases hpost with h | h
        · rw [hfix] at hlt
          omega
        · exact not_addable_after_fold finals u.id rest _ h
    · exact balanceFold_post finals rest _ u hurest hlt

/-- Only processed ids change in the balance fold. -/
theorem balanceFold_change (finals : List Exam) :
    ∀ (us : List Worker) (p : List SchedBlock × (Nat → Int)) (k : Nat),
      (us.foldl (fun p u => balanceScan finals u p.1 (TARGET_HOURS - p.2 u.id) p.2) p).2 k ≠ p.2 k →
      ∃ w ∈ us, w.id = k := by
  intro us p k h
  by_cases hex : ∃ w ∈ us, w.id = k
  · exact hex
  · push_neg at hex
    exact absurd (balanceFold_hw_other finals k us p hex) h

/-- C7: the balance-hours pass is idempotent — running it a second time on its
own output changes neither the schedule nor the hours tally, for every
schedule, roster, tally and exam list. -/
theorem C7_balance_idempotent (schedule : List SchedBlock) (coreUsers : List Worker)
    (hoursWorked : Nat → Int) (finals : List Exam) :
    balanceHours (balanceHours schedule coreUsers hoursWorked finals).1 coreUsers
        (balanceHours schedule coreUsers hoursWorked finals).2 finals =
      balanceHours schedule coreUsers hoursWorked finals := by
  generalize hg : balanceHours schedule coreUsers hoursWorked finals = R
  have hkey : ∀ u ∈ coreUsers, R.2 u.id < TARGET_HOURS →
      ∀ b ∈ R.1, addable finals u.id b = false := by
    subst hg
    unfold balanceHours
    intro u hu hlt
    by_cases hex : ∃ w ∈ coreUsers.filter fun w => decide (hoursWorked w.id < TARGET_HOURS),
        w.id = u.id
    · obtain ⟨w, hw1, hwid⟩ := hex
      have hres := balanceFold_post finals _ _ w hw1 (by rw [hwid]; exact hlt)
      rw [hwid] at hres
      exact hres
    · push_neg at hex
      have heq := balanceFold_hw_other finals u.id
        (coreUsers.filter fun w => decide (hoursWorked w.id < TARGET_HOURS))
        (schedule, hoursWorked) hex
      rw [heq] at hlt
      exact absurd rfl
        (hex u (List.mem_filter.mpr ⟨hu, by simpa using hlt⟩))
  unfold balanceHours
  have hnoop : ∀ (us : List Worker), (∀ u ∈ us, u ∈ coreUsers ∧ R.2 u.id < TARGET_HOURS) →
      us.foldl (fun p u => balanceScan finals u p.1 (TARGET_HOURS - p.2 u.id) p.2) (R.1, R.2) =
        (R.1, R.2) := by
    intro us
    induction us with
    | nil => intro _; rfl
    | cons v rest ih =>
      intro hsub
      rw [List.foldl_cons]
      have hv := hsub v (List.mem_cons_self v rest)
      rw [balanceScan_noop finals v R.1 _ R.2 (hkey v hv.1 hv.2)]
      exact ih fun u hu => hsub u (List.mem_cons_of_mem v hu)
  rw [hnoop (coreUsers.filter fun u => decide (R.2 u.id < TARGET_HOURS))
    (fun u hu => ⟨(List.mem_filter.mp hu).1, by simpa using (List.mem_filter.mp hu).2⟩)]

/-- Unrolling one step of the emission bookkeeping fold. -/
theorem recordPicked_cons (clock : Nat → Nat) (isWin : Bool) (dur : Int) (st : St)
    (u : Worker) (rest : List Worker) :
    recordPicked clock isWin dur st (u :: rest) =
      recordPicked clock isWin dur
        (if isWin then
          { st with hoursWorked := upd st.hoursWorked u.id (st.hoursWorked u.id + dur),
                    lastWin := upd st.lastWin u.id (clock st.tick), tick := st.tick + 1 }
        else
          { st with hoursWorked := upd st.hoursWorked u.id (st.hoursWorked u.id + dur),
                    lastRem := upd st.lastRem u.id (clock st.tick), tick := st.tick + 1 })
        rest := by
  cases isWin <;> rfl

/-- The bookkeeping after an emission leaves the schedule unchanged. -/
theorem recordPicked_schedule (clock : Nat → Nat) (isWin : Bool) (dur : Int)
    (picked : List Worker) : ∀ st : St,
      (recordPicked clock isWin dur st picked).schedule = st.schedule := by
  induction picked with
  | nil => intro st; rfl
  | cons u rest ih =>
    intro st
    rw [recordPicked_cons, ih]
    cases isWin <;> rfl

/-- The bookkeeping after an emission leaves the violations unchanged. -/
theorem recordPicked_violations (clock : Nat → Nat) (isWin : Bool) (dur : Int)
    (picked : List Worker) : ∀ st : St,
      (recordPicked clock isWin dur st picked).violations = st.violations := by
  induction picked with
  | nil => intro st; rfl
  | cons u rest ih =>
    intro st
    rw [recordPicked_cons, ih]
    cases isWin <;> rfl

/-- The tally after the emission bookkeeping is the plain fold of the duration
increments, independent of the stamp and counter updates. -/
theorem recordPicked_hw (clock : Nat → Nat) (isWin : Bool) (dur : Int)
    (picked : List Worker) : ∀ st : St,
      (recordPicked clock isWin dur st picked).hoursWorked =
        picked.foldl (fun h u => upd h u.id (h u.id + dur)) st.hoursWorked := by
  induction picked with
  | nil => intro st; rfl
  | cons u rest ih =>
    intro st
    rw [recordPicked_cons, ih, List.foldl_cons]
    cases isWin <;> rfl

/-- Ids of a sublist stay pairwise distinct. -/
theorem nodup_ids_sublist {l1 l2 : List Worker} (hsub : l1.Sublist l2)
    (h : (l2.map Worker.id).Nodup) : (l1.map Worker.id).Nodup :=
  h.sublist (hsub.map Worker.id)

/-- Both candidate pools are filters of filters of the roster. -/
theorem findEligible_sublist (users : List Worker) (finals : List Exam)
    (shift : BlockTimes) (hw : Nat → Int) (dur cap : Int) :
    (findEligible users finals shift hw dur cap).Sublist users :=
  List.filter_sublist users

theorem coreOf_sublist (roster : List Worker) : (coreOf roster).Sublist roster :=
  (List.filter_sublist (activeUsers roster)).trans (List.filter_sublist roster)

theorem floatersOf_sublist (roster : List Worker) : (floatersOf roster).Sublist roster :=
  (List.filter_sublist (activeUsers roster)).trans (List.filter_sublist roster)

/-- The Window pool is one of the two candidate pools. -/
theorem windowPool_cases (core floaters : List Worker) (finals : List Exam)
    (shift : BlockTimes) (hw : Nat → Int) (dur : Int) :
    windowPool core floaters finals shift hw dur =
        findEligible core finals shift hw dur TARGET_HOURS ∨
      windowPool core floaters finals shift hw dur =
        findEligible floaters finals shift hw dur MAX_HOURS := by
  unfold windowPool
  by_cases h : (findEligible core finals shift hw dur TARGET_HOURS).length < WINDOW_MIN
  · exact Or.inr (by rw [if_pos h])
  · exact Or.inl (by rw [if_neg h])

/-- The Remote pool is one of the two candidate pools. -/
theorem remotePool_cases (core floaters : List Worker) (finals : List Exam)
    (shift : BlockTimes) (hw : Nat → Int) (dur : Int) :
    remotePool core floaters finals shift hw dur =
        findEligible core finals shift hw dur TARGET_HOURS ∨
      remotePool core floaters finals shift hw dur =
        findEligible floaters finals shift hw dur MAX_HOURS := by
  unfold remotePool
  by_cases h : (findEligible core finals shift hw dur TARGET_HOURS).length < REMOTE_MIN
  · exact Or.inr (by rw [if_pos h])
  · exact Or.inl (by rw [if_neg h])

/-- Every member of either candidate pool is a roster member whose projected
tally stays within their cap: `TARGET_HOURS` for core workers, `MAX_HOURS` for
floaters. -/
theorem pool_mem_spec (roster : List Worker) (finals : List Exam) (shift : BlockTimes)
    (hw : Nat → Int) (dur : Int) (pool : List Worker)
    (hp : pool = findEligible (coreOf roster) finals shift hw dur TARGET_HOURS ∨
          pool = findEligible (floatersOf roster) finals shift hw dur MAX_HOURS) :
    (∀ w ∈ pool, w ∈ roster ∧
      hw w.id + dur ≤ (if w.isFloater = true then MAX_HOURS else TARGET_HOURS)) ∧
    pool.Sublist roster := by
  rcases hp with rfl | rfl
  · constructor
    · intro w hwmem
      have h1 := (mem_findEligible _ _ _ _ _ _ w).mp hwmem
      have h2 : w ∈ coreOf roster := h1.1
      have h3 := List.mem_filter.mp h2
      have h4 : w.isFloater = false := by simpa using h3.2
      refine ⟨(coreOf_sublist roster).subset h2, ?_⟩
      rw [h4]
      simpa using h1.2.2.2.1
    · exact (findEligible_sublist _ _ _ _ _ _).trans (coreOf_sublist roster)
  · constructor
    · intro w hwmem
      have h1 := (mem_findEligible _ _ _ _ _ _ w).mp hwmem
      have h2 : w ∈ floatersOf roster := h1.1
      have h3 := List.mem_filter.mp h2
      have h4 : w.isFloater = true := by simpa using h3.2
      refine ⟨(floatersOf_sublist roster).subset h2, ?_⟩
      rw [h4]
      simp only [if_true]
      exact h1.2.2.2.1
    · exact (findEligible_sublist _ _ _ _ _ _).trans (floatersOf_sublist roster)

/-- Folding the duration increments over a picked list with pairwise distinct
ids keeps every roster member within their cap, provided every picked worker
was within cap minus the duration. -/
theorem hwFold_bound (dur : Int) (roster : List Worker)
    (hids : (roster.map Worker.id).Nodup) :
    ∀ (picked : List Worker) (hw : Nat → Int),
      (picked.map Worker.id).Nodup →
      (∀ w ∈ picked, w ∈ roster ∧
        hw w.id + dur ≤ (if w.isFloater = true then MAX_HOURS else TARGET_HOURS)) →
      (∀ u ∈ roster, hw u.id ≤ (if u.isFloater = true then MAX_HOURS else TARGET_HOURS)) →
      ∀ u ∈ roster, (picked.foldl (fun h u => upd h u.id (h u.id + dur)) hw) u.id ≤
        (if u.isFloater = true then MAX_HOURS else TARGET_HOURS)
  | [], hw, _, _, hb => hb
  | w :: rest, hw, hnd, hcond, hb => by
    rw [List.foldl_cons]
    have hwmem := hcond w (List.mem_cons_self w rest)
    have hnd2 : (rest.map Worker.id).Nodup := (List.nodup_cons.mp (by simpa using hnd)).2
    have hwid : w.id ∉ rest.map Worker.id := (List.nodup_cons.mp (by simpa using hnd)).1
    refine hwFold_bound dur roster hids rest _ hnd2 ?_ ?_
    · intro v hv
      have hvne : v.id ≠ w.id := fun he => hwid (he ▸ List.mem_map_of_mem Worker.id hv)
      have := hcond v (List.mem_cons_of_mem w hv)
      simpa [upd, hvne] using this
    · intro u hu
      by_cases hid : u.id = w.id
      · have huw : u = w := List.inj_on_of_nodup_map hids hu hwmem.1 hid
        subst huw
        simpa [upd] using hwmem.2
      · simpa [upd, hid] using hb u hu

/-- The Window half of a slice keeps every roster member within their cap. -/
theorem windowPhase_hw_bound (clock : Nat → Nat) (roster : List Worker)
    (finals : List Exam) (st : St) (dateStr : String) (sl : HM × HM)
    (hids : (roster.map Worker.id).Nodup)
    (hb : ∀ u ∈ roster, st.hoursWorked u.id ≤
      (if u.isFloater = true then MAX_HOURS else TARGET_HOURS)) :
    ∀ u ∈ roster,
      (windowPhase clock (coreOf roster) (floatersOf roster) finals st dateStr sl).hoursWorked
          u.id ≤ (if u.isFloater = true then MAX_HOURS else TARGET_HOURS) := by
  intro u hu
  unfold windowPhase
  rw [recordPicked_hw]
  have hspec := pool_mem_spec roster finals (sliceTimes dateStr sl) st.hoursWorked
    (sliceDur sl) _ (windowPool_cases (coreOf roster) (floatersOf roster) finals
      (sliceTimes dateStr sl) st.hoursWorked (sliceDur sl))
  refine hwFold_bound (sliceDur sl) roster hids _ st.hoursWorked ?_ ?_ hb u hu
  · exact pickWorkers_nodup_ids _ _ _ _ (nodup_ids_sublist hspec.2 hids)
  · intro w hw
    exact hspec.1 w (pickWorkers_mem _ _ _ _ w hw)

/-- The Remote half of a slice keeps every roster member within their cap. -/
theorem remotePhase_hw_bound (clock : Nat → Nat) (roster : List Worker)
    (finals : List Exam) (st : St) (dateStr : String) (sl : HM × HM)
    (hids : (roster.map Worker.id).Nodup)
    (hb : ∀ u ∈ roster, st.hoursWorked u.id ≤
      (if u.isFloater = true then MAX_HOURS else TARGET_HOURS)) :
    ∀ u ∈ roster,
      (remotePhase clock (coreOf roster) (floatersOf roster) finals st dateStr sl).hoursWorked
          u.id ≤ (if u.isFloater = true then MAX_HOURS else TARGET_HOURS) := by
  intro u hu
  unfold remotePhase
  rw [recordPicked_hw]
  have hspec := pool_mem_spec roster finals (sliceTimes dateStr sl) st.hoursWorked
    (sliceDur sl) _ (remotePool_cases (coreOf roster) (floatersOf roster) finals
      (sliceTimes dateStr sl) st.hoursWorked (sliceDur sl))
  refine hwFold_bound (sliceDur sl) roster hids _ st.hoursWorked ?_ ?_ hb u hu
  · exact pickWorkers_nodup_ids _ _ _ _ (nodup_ids_sublist hspec.2 hids)
  · intro w hw
    exact hspec.1 w (pickWorkers_mem _ _ _ _ w hw)

/-- The whole main pass keeps every roster member within their cap. -/
theorem mainPass_hw_bound (clock : Nat → Nat) (roster : List Worker) (finals : List Exam)
    (hids : (roster.map Worker.id).Nodup) :
    ∀ u ∈ roster,
      (mainPass clock (coreOf roster) (floatersOf roster) finals).hoursWorked u.id ≤
        (if u.isFloater = true then MAX_HOURS else TARGET_HOURS) := by
  have hgen : ∀ (l : List (String × (HM × HM))) (st : St),
      (∀ u ∈ roster, st.hoursWorked u.id ≤
        (if u.isFloater = true then MAX_HOURS else TARGET_HOURS)) →
      ∀ u ∈ roster,
        (l.foldl (fun s p => processSlice clock (coreOf roster) (floatersOf roster) finals
            s p.1 p.2) st).hoursWorked u.id ≤
          (if u.isFloater = true then MAX_HOURS else TARGET_HOURS) := by
    intro l
    induction l with
    | nil => exact fun st h => h
    | cons p rest ih =>
      intro st h
      rw [List.foldl_cons]
      exact ih _ (remotePhase_hw_bound clock roster finals _ p.1 p.2 hids
        (windowPhase_hw_bound clock roster finals st p.1 p.2 hids h))
  refine hgen slicePairs initialState ?_
  intro u hu
  by_cases hf : u.isFloater = true <;> simp [initialState, hf, MAX_HOURS, TARGET_HOURS]

/-- The balance scan keeps the scanned id at or below `MAX_HOURS`, provided
every block is at most four hours (240 minutes) long. -/
theorem balanceScan_le (finals : List Exam) (u : Worker) :
    ∀ (blocks : List SchedBlock) (need : Int) (hw : Nat → Int),
      (∀ b ∈ blocks, durOfBlock b ≤ 240) →
      need = TARGET_HOURS - hw u.id →
      hw u.id ≤ MAX_HOURS →
      (balanceScan finals u blocks need hw).2 u.id ≤ MAX_HOURS
  | [], need, hw, _, _, hle => hle
  | b :: rest, need, hw, hdur, hneed, hle => by
    unfold balanceScan
    by_cases h0 : need ≤ 0
    · rw [if_pos h0]
      exact hle
    · rw [if_neg h0]
      by_cases hA : addable finals u.id b = true
      · rw [if_pos hA]
        simp only
        refine balanceScan_le finals u rest _ _
          (fun c hc => hdur c (List.mem_cons_of_mem b hc)) (by simp [upd]; omega) ?_
        have hd := hdur b (List.mem_cons_self b rest)
        simp only [upd, if_pos rfl]
        unfold TARGET_HOURS at hneed
        unfold MAX_HOURS
        omega
      · rw [if_neg hA]
        simp only
        exact balanceScan_le finals u rest _ _
          (fun c hc => hdur c (List.mem_cons_of_mem b hc)) hneed hle

/-- The balance scan never lengthens or shortens a block duration. -/
theorem balanceScan_dur (finals : List Exam) (u : Worker) :
    ∀ (blocks : List SchedBlock) (need : Int) (hw : Nat → Int),
      (∀ b ∈ blocks, durOfBlock b ≤ 240) →
      ∀ b ∈ (balanceScan finals u blocks need hw).1, durOfBlock b ≤ 240
  | [], _, _, _ => by simp [balanceScan]
  | b :: rest, need, hw, hdur => by
    unfold balanceScan
    by_cases h0 : need ≤ 0
    · rw [if_pos h0]
      exact hdur
    · rw [if_neg h0]
      by_cases hA : addable finals u.id b = true
      · rw [if_pos hA]
        simp only
        intro c hc
        rcases List.mem_cons.mp hc with rfl | hc
        · exact hdur b (List.mem_cons_self b rest)
        · exact balanceScan_dur finals u rest _ _
            (fun d hd => hdur d (List.mem_cons_of_mem b hd)) c hc
      · rw [if_neg hA]
        simp only
        intro c hc
        rcases List.mem_cons.mp hc with rfl | hc
        · exact hdur c (List.mem_cons_self c rest)
        · exact balanceScan_dur finals u rest _ _
            (fun d hd => hdur d (List.mem_cons_of_mem b hd)) c hc

/-- The balance fold keeps every roster member at or below `MAX_HOURS`. -/
theorem balanceFold_hw_le (finals : List Exam) (roster : List Worker) :
    ∀ (us : List Worker) (p : List SchedBlock × (Nat → Int)),
      (∀ b ∈ p.1, durOfBlock b ≤ 240) →
      (∀ u ∈ roster, p.2 u.id ≤ MAX_HOURS) →
      ∀ u ∈ roster,
        (us.foldl (fun p u => balanceScan finals u p.1 (TARGET_HOURS - p.2 u.id) p.2) p).2 u.id ≤
          MAX_HOURS
  | [], p, _, hb => hb
  | v :: rest, p, hdur, hb => by
    rw [List.foldl_cons]
    refine balanceFold_hw_le finals roster rest _ ?_ ?_
    · exact balanceScan_dur finals v p.1 _ p.2 hdur
    · intro u hu
      by_cases hid : u.id = v.id
      · rw [hid]
        by_cases hvle : p.2 v.id ≤ MAX_HOURS
        · exact balanceScan_le finals v p.1 _ p.2 hdur rfl hvle
        · exact absurd (hid ▸ hb u hu) hvle
      · rw [balanceScan_hw_other finals v u.id hid p.1 _ p.2]
        exact hb u hu

/-- Every slice of the catalog is exactly 240 minutes long. -/
theorem slicePairs_dur : ∀ p ∈ slicePairs, sliceDur p.2 = 240 := by decide

/-- Every block the main pass emits is four hours long. -/
theorem mainPass_dur (clock : Nat → Nat) (core floaters : List Worker) (finals : List Exam) :
    ∀ b ∈ (mainPass clock core floaters finals).schedule, durOfBlock b ≤ 240 := by
  have hgen : ∀ (l : List (String × (HM × HM))) (st : St),
      (∀ p ∈ l, sliceDur p.2 = 240) →
      (∀ b ∈ st.schedule, durOfBlock b ≤ 240) →
      ∀ b ∈ (l.foldl (fun s p => processSlice clock core floaters finals s p.1 p.2)
          st).schedule, durOfBlock b ≤ 240 := by
    intro l
    induction l with
    | nil => exact fun st _ h => h
    | cons p rest ih =>
      intro st hsl h
      rw [List.foldl_cons]
      refine ih _ (fun q hq => hsl q (List.mem_cons_of_mem p hq)) ?_
      unfold processSlice remotePhase windowPhase
      rw [recordPicked_schedule]
      simp only [recordPicked_schedule]
      intro b hb
      rcases List.mem_append.mp hb with hb | hb
      · rcases List.mem_append.mp hb with hb | hb
        · exact h b hb
        · rcases List.mem_singleton.mp hb with rfl
          have := hsl p (List.mem_cons_self p rest)
          simpa [durOfBlock, sliceDur] using le_of_eq this
      · rcases List.mem_singleton.mp hb with rfl
        have := hsl p (List.mem_cons_self p rest)
        simpa [durOfBlock, sliceDur] using le_of_eq this
  exact hgen slicePairs initialState slicePairs_dur (by simp [initialState])

/-- C3: with pairwise distinct worker ids (the data-model invariant), every
worker of the roster ends the run — main pass plus balance pass — with at most
20 hours in the tally. -/
theorem C3_hour_cap (roster : List Worker) (finals : List Exam) (clock : Nat → Nat)
    (hids : (roster.map Worker.id).Nodup) :
    ∀ u ∈ roster,
      (((autoAssignState roster finals clock).hoursWorked u.id : ℚ)) / 60 ≤ 20 := by
  intro u hu
  have hmain := mainPass_hw_bound clock roster finals hids
  have hmax : ∀ v ∈ roster,
      (mainPass clock (coreOf roster) (floatersOf roster) finals).hoursWorked v.id ≤
        MAX_HOURS := by
    intro v hv
    have := hmain v hv
    by_cases hf : v.isFloater = true <;>
      simp only [hf, if_true, if_false] at this <;>
      [exact this; exact this.trans (by unfold TARGET_HOURS MAX_HOURS; omega)]
  have hdur := mainPass_dur clock (coreOf roster) (floatersOf roster) finals
  have hfin : (autoAssignState roster finals clock).hoursWorked u.id ≤ MAX_HOURS := by
    unfold autoAssignState balanceHours
    exact balanceFold_hw_le finals roster _ _ hdur hmax u hu
  have hq : ((autoAssignState roster finals clock).hoursWorked u.id : ℚ) ≤ 1200 := by
    exact_mod_cast hfin
  linarith

/-- Witness for C3 at a concrete two-worker roster. -/
theorem C3_hour_cap_witness :
    ((pairRoster.map Worker.id).Nodup) ∧
    ∀ u ∈ pairRoster,
      (((autoAssignState pairRoster [] clock0).hoursWorked u.id : ℚ)) / 60 ≤ 20 :=
  ⟨by decide, C3_hour_cap pairRoster [] clock0 (by decide)⟩

/-- The violations list after the Window half of a slice. -/
theorem windowPhase_violations (clock : Nat → Nat) (core floaters : List Worker)
    (finals : List Exam) (st : St) (dateStr : String) (sl : HM × HM) :
    (windowPhase clock core floaters finals st dateStr sl).violations =
      if (pickWorkers (windowPool core floaters finals (sliceTimes dateStr sl)
            st.hoursWorked (sliceDur sl)) st.hoursWorked (min WINDOW_MAX WINDOW_MIN)
            st.lastWin).length < WINDOW_MIN then
        st.violations ++ [undercoveredMsg "Window" dateStr (toMinutes sl.1)]
      else st.violations := by
  simp only [windowPhase, recordPicked_violations]

/-- The schedule after the Window half of a slice. -/
theorem windowPhase_schedule (clock : Nat → Nat) (core floaters : List Worker)
    (finals : List Exam) (st : St) (dateStr : String) (sl : HM × HM) :
    (windowPhase clock core floaters finals st dateStr sl).schedule =
      st.schedule ++
        [⟨dateStr, sl.1, sl.2, "Window",
          (pickWorkers (windowPool core floaters finals (sliceTimes dateStr sl)
            st.hoursWorked (sliceDur sl)) st.hoursWorked (min WINDOW_MAX WINDOW_MIN)
            st.lastWin).map fun u => (u.id, u.name)⟩] := by
  simp only [windowPhase, recordPicked_schedule]

/-- The violations list after the Remote half of a slice. -/
theorem remotePhase_violations (clock : Nat → Nat) (core floaters : List Worker)
    (finals : List Exam) (st : St) (dateStr : String) (sl : HM × HM) :
    (remotePhase clock core floaters finals st dateStr sl).violations =
      if (pickWorkers (remotePool core floaters finals (sliceTimes dateStr sl)
            st.hoursWorked (sliceDur sl)) st.hoursWorked REMOTE_MIN
            st.lastRem).length < REMOTE_MIN then
        st.violations ++ [undercoveredMsg "Remote" dateStr (toMinutes sl.1)]
      else st.violations := by
  simp only [remotePhase, recordPicked_violations]

/-- The schedule after the Remote half of a slice. -/
theorem remotePhase_schedule (clock : Nat → Nat) (core floaters : List Worker)
    (finals : List Exam) (st : St) (dateStr : String) (sl : HM × HM) :
    (remotePhase clock core floaters finals st dateStr sl).schedule =
      st.schedule ++
        [⟨dateStr, sl.1, sl.2, "Remote",
          (pickWorkers (remotePool core floaters finals (sliceTimes dateStr sl)
            st.hoursWorked (sliceDur sl)) st.hoursWorked REMOTE_MIN
            st.lastRem).map fun u => (u.id, u.name)⟩] := by
  simp only [remotePhase, recordPicked_schedule]

/-- The state component of the checked fold is the plain main-pass fold. -/
theorem poolsFold_fst (clock : Nat → Nat) (core floaters : List Worker) (finals : List Exam) :
    ∀ (l : List (String × (HM × HM))) (q : St × Bool),
      (l.foldl (poolsStep clock core floaters finals) q).1 =
        l.foldl (fun s p => processSlice clock core floaters finals s p.1 p.2) q.1
  | [], _ => rfl
  | p :: rest, q => by
    rw [List.foldl_cons, List.foldl_cons,
      poolsFold_fst clock core floaters finals rest _]
    rfl

/-- A true checked fold started from a true flag. -/
theorem poolsFold_ok (clock : Nat → Nat) (core floaters : List Worker) (finals : List Exam) :
    ∀ (l : List (String × (HM × HM))) (q : St × Bool),
      (l.foldl (poolsStep clock core floaters finals) q).2 = true → q.2 = true
  | [], _, h => h
  | p :: rest, q, h => by
    rw [List.foldl_cons] at h
    have h2 := poolsFold_ok clock core floaters finals rest _ h
    have h3 : (poolsStep clock core floaters finals q p).2 = (q.2 && _) := rfl
    rw [h3, Bool.and_eq_true] at h2
    exact h2.1

/-- With adequate pools, the checked fold keeps the violations empty and every
emitted block at its minimum staffing. -/
theorem poolsFold_cover (clock : Nat → Nat) (core floaters : List Worker) (finals : List Exam) :
    ∀ (l : List (String × (HM × HM))) (q : St × Bool),
      (q.2 = true → q.1.violations = [] ∧ ∀ b ∈ q.1.schedule, minStaffOk b) →
      (l.foldl (poolsStep clock core floaters finals) q).2 = true →
      (l.foldl (poolsStep clock core floaters finals) q).1.violations = [] ∧
        ∀ b ∈ (l.foldl (poolsStep clock core floaters finals) q).1.schedule, minStaffOk b
  | [], q, hq, hok => hq hok
  | p :: rest, q, hq, hok => by
    rw [List.foldl_cons] at hok ⊢
    refine poolsFold_cover clock core floaters finals rest _ ?_ hok
    intro hstep
    have hqt : q.2 = true := by
      have h3 : (poolsStep clock core floaters finals q p).2 = (q.2 && _) := rfl
      rw [h3, Bool.and_eq_true] at hstep
      exact hstep.1
    have hco := hq hqt
    have hokWR : (decide (WINDOW_MIN ≤ (windowPool core floaters finals (sliceTimes p.1 p.2)
          q.1.hoursWorked (sliceDur p.2)).length) &&
        decide (REMOTE_MIN ≤ (remotePool core floaters finals (sliceTimes p.1 p.2)
          (windowPhase clock core floaters finals q.1 p.1 p.2).hoursWorked
          (sliceDur p.2)).length)) = true := by
      have h3 : (poolsStep clock core floaters finals q p).2 = (q.2 && _) := rfl
      rw [h3, Bool.and_eq_true] at hstep
      exact hstep.2
    rw [Bool.and_eq_true, decide_eq_true_eq, decide_eq_true_eq] at hokWR
    obtain ⟨hokW, hokR⟩ := hokWR
    have hwinlen : (pickWorkers (windowPool core floaters finals (sliceTimes p.1 p.2)
        q.1.hoursWorked (sliceDur p.2)) q.1.hoursWorked (min WINDOW_MAX WINDOW_MIN)
        q.1.lastWin).length = 1 := by
      rw [pickWorkers_length]
      unfold WINDOW_MAX WINDOW_MIN at *
      omega
    have hremlen : (pickWorkers (remotePool core floaters finals (sliceTimes p.1 p.2)
        (windowPhase clock core floaters finals q.1 p.1 p.2).hoursWorked (sliceDur p.2))
        (windowPhase clock core floaters finals q.1 p.1 p.2).hoursWorked REMOTE_MIN
        (windowPhase clock core floaters finals q.1 p.1 p.2).lastRem).length = 2 := by
      rw [pickWorkers_length]
      unfold REMOTE_MIN at *
      omega
    have hwinV : (windowPhase clock core floaters finals q.1 p.1 p.2).violations = [] := by
      rw [windowPhase_violations, if_neg (by rw [hwinlen]; unfold WINDOW_MIN; omega), hco.1]
    have hwinS : ∀ b ∈ (windowPhase clock core floaters finals q.1 p.1 p.2).schedule,
        minStaffOk b := by
      rw [windowPhase_schedule]
      intro b hb
      rcases List.mem_append.mp hb with hb | hb
      · exact hco.2 b hb
      · rcases List.mem_singleton.mp hb with rfl
        constructor
        · intro _
          rw [List.length_map, hwinlen]
          decide
        · intro hcon
          have hne : ("Window" : String) = "Remote" := by simpa using hcon
          exact absurd hne (by decide)
    have hwinLR : (windowPhase clock core floaters finals q.1 p.1 p.2).lastRem =
        (windowPhase clock core floaters finals q.1 p.1 p.2).lastRem := rfl
    constructor
    · show (remotePhase clock core floaters finals
        (windowPhase clock core floaters finals q.1 p.1 p.2) p.1 p.2).violations = []
      rw [remotePhase_violations, if_neg (by rw [hremlen]; unfold REMOTE_MIN; omega), hwinV]
    · show ∀ b ∈ (remotePhase clock core floaters finals
        (windowPhase clock core floaters finals q.1 p.1 p.2) p.1 p.2).schedule, minStaffOk b
      rw [remotePhase_schedule]
      intro b hb
      rcases List.mem_append.mp hb with hb | hb
      · exact hwinS b hb
      · rcases List.mem_singleton.mp hb with rfl
        constructor
        · intro hcon
          have hne : ("Remote" : String) = "Window" := by simpa using hcon
          exact absurd hne (by decide)
        · intro _
          rw [List.length_map, hremlen]
          decide

/-- The balance scan preserves any block predicate stable under appending an
assignee. -/
theorem balanceScan_invP (finals : List Exam) (u : Worker) (P : SchedBlock → Prop)
    (hP : ∀ b x, P b → P { b with assignedTo := b.assignedTo ++ [x] }) :
    ∀ (blocks : List SchedBlock) (need : Int) (hw : Nat → Int),
      (∀ b ∈ blocks, P b) → ∀ b ∈ (balanceScan finals u blocks need hw).1, P b
  | [], _, _, h => by simpa [balanceScan] using h
  | b :: rest, need, hw, h => by
    unfold balanceScan
    by_cases h0 : need ≤ 0
    · rw [if_pos h0]
      exact h
    · rw [if_neg h0]
      by_cases hA : addable finals u.id b = true
      · rw [if_pos hA]
        simp only
        intro c hc
        rcases List.mem_cons.mp hc with rfl | hc
        · exact hP b _ (h b (List.mem_cons_self b rest))
        · exact balanceScan_invP finals u P hP rest _ _
            (fun d hd => h d (List.mem_cons_of_mem b hd)) c hc
      · rw [if_neg hA]
        simp only
        intro c hc
        rcases List.mem_cons.mp hc with rfl | hc
        · exact h c (List.mem_cons_self c rest)
        · exact balanceScan_invP finals u P hP rest _ _
            (fun d hd => h d (List.mem_cons_of_mem b hd)) c hc

/-- The balance fold preserves any block predicate stable under appending an
assignee. -/
theorem balanceFold_invP (finals : List Exam) (P : SchedBlock → Prop)
    (hP : ∀ b x, P b → P { b with assignedTo := b.assignedTo ++ [x] }) :
    ∀ (us : List Worker) (p : List SchedBlock × (Nat → Int)),
      (∀ b ∈ p.1, P b) →
      ∀ b ∈ (us.foldl (fun p u => balanceScan finals u p.1 (TARGET_HOURS - p.2 u.id) p.2) p).1,
        P b
  | [], _, h => h
  | v :: rest, p, h => by
    rw [List.foldl_cons]
    exact balanceFold_invP finals P hP rest _ (balanceScan_invP finals v P hP p.1 _ p.2 h)

/-- Appending an assignee preserves the minimum-staffing predicate. -/
theorem minStaffOk_push (b : SchedBlock) (x : Nat × String) (h : minStaffOk b) :
    minStaffOk { b with assignedTo := b.assignedTo ++ [x] } := by
  obtain ⟨h1, h2⟩ := h
  constructor
  · intro ht
    have := h1 ht
    simp only [List.length_append, List.length_cons, List.length_nil]
    omega
  · intro ht
    have := h2 ht
    simp only [List.length_append, List.length_cons, List.length_nil]
    omega

/-- C6 (amended): when every slice of the run offers a usable pool — after the
hour-cap filtering and the floater retry — of at least the per-kind minimum
staffing, the greedy baseline reports no violations and every Window block
carries at least 1 assignee and every Remote block at least 2. -/
theorem C6_adequate_pools_coverage (roster : List Worker) (finals : List Exam)
    (clock : Nat → Nat) (h : poolsAdequate roster finals clock = true) :
    (autoAssignFinals roster finals clock).summary.violations = [] ∧
    ∀ b ∈ (autoAssignFinals roster finals clock).schedule, minStaffOk b := by
  unfold poolsAdequate at h
  have hcover := poolsFold_cover clock (coreOf roster) (floatersOf roster) finals slicePairs
    (initialState, true) (fun _ => ⟨rfl, by simp [initialState]⟩) h
  rw [poolsFold_fst] at hcover
  have hmain : (slicePairs.foldl (fun s p => processSlice clock (coreOf roster)
      (floatersOf roster) finals s p.1 p.2) initialState) =
      mainPass clock (coreOf roster) (floatersOf roster) finals := rfl
  rw [hmain] at hcover
  constructor
  · show (autoAssignState roster finals clock).violations = []
    unfold autoAssignState
    exact hcover.1
  · show ∀ b ∈ (autoAssignState roster finals clock).schedule, minStaffOk b
    unfold autoAssignState balanceHours
    exact balanceFold_invP finals minStaffOk minStaffOk_push _ _ hcover.2

/-- Witness for the amended C6 at a fourteen-worker roster whose pools stay
adequate on every slice. -/
theorem C6_adequate_pools_coverage_witness :
    poolsAdequate (plainRoster 14) [] clock0 = true ∧
    ((autoAssignFinals (plainRoster 14) [] clock0).summary.violations = [] ∧
      ∀ b ∈ (autoAssignFinals (plainRoster 14) [] clock0).schedule, minStaffOk b) :=
  ⟨by decide, C6_adequate_pools_coverage (plainRoster 14) [] clock0 (by decide)⟩

/-- One slice iteration appends exactly two blocks. -/
theorem processSlice_len (clock : Nat → Nat) (core floaters : List Worker)
    (finals : List Exam) (st : St) (dateStr : String) (sl : HM × HM) :
    (processSlice clock core floaters finals st dateStr sl).schedule.length =
      st.schedule.length + 2 := by
  unfold processSlice
  rw [remotePhase_schedule, windowPhase_schedule]
  simp [List.length_append]

/-- The main fold appends two blocks per slice. -/
theorem foldSlices_len (clock : Nat → Nat) (core floaters : List Worker) (finals : List Exam) :
    ∀ (l : List (String × (HM × HM))) (st : St),
      (l.foldl (fun s p => processSlice clock core floaters finals s p.1 p.2)
          st).schedule.length = st.schedule.length + 2 * l.length
  | [], st => by simp
  | p :: rest, st => by
    rw [List.foldl_cons, foldSlices_len clock core floaters finals rest _,
      processSlice_len, List.length_cons]
    omega

/-- The balance scan keeps the number of blocks. -/
theorem balanceScan_len (finals : List Exam) (u : Worker) :
    ∀ (blocks : List SchedBlock) (need : Int) (hw : Nat → Int),
      (balanceScan finals u blocks need hw).1.length = blocks.length
  | [], _, _ => rfl
  | b :: rest, need, hw => by
    unfold balanceScan
    by_cases h0 : need ≤ 0
    · rw [if_pos h0]
    · rw [if_neg h0]
      by_cases hA : addable finals u.id b = true
      · rw [if_pos hA]
        simp only [List.length_cons]
        rw [balanceScan_len finals u rest _ _]
      · rw [if_neg hA]
        simp only [List.length_cons]
        rw [balanceScan_len finals u rest _ _]

/-- The balance fold keeps the number of blocks. -/
theorem balanceFold_len (finals : List Exam) :
    ∀ (us : List Worker) (p : List SchedBlock × (Nat → Int)),
      (us.foldl (fun p u => balanceScan finals u p.1 (TARGET_HOURS - p.2 u.id) p.2)
          p).1.length = p.1.length
  | [], _ => rfl
  | v :: rest, p => by
    rw [List.foldl_cons, balanceFold_len finals rest _, balanceScan_len]

/-- Reporting is monotone in the violations list. -/
theorem reportOk_mono (viol viol2 : List String) (hsub : ∀ s ∈ viol, s ∈ viol2)
    (b : SchedBlock) (h : reportOk viol b) : reportOk viol2 b :=
  ⟨fun ht hl => hsub _ (h.1 ht hl), fun ht hl => hsub _ (h.2 ht hl)⟩

/-- Reporting survives appending an assignee to the block. -/
theorem reportOk_push (viol : List String) (b : SchedBlock) (x : Nat × String)
    (h : reportOk viol b) : reportOk viol { b with assignedTo := b.assignedTo ++ [x] } := by
  obtain ⟨h1, h2⟩ := h
  constructor
  · intro ht hl
    simp only [List.length_append, List.length_cons, List.length_nil] at hl
    exact h1 ht (by omega)
  · intro ht hl
    simp only [List.length_append, List.length_cons, List.length_nil] at hl
    exact h2 ht (by omega)

/-- The Window half keeps every block reported. -/
theorem windowPhase_report (clock : Nat → Nat) (core floaters : List Worker)
    (finals : List Exam) (st : St) (dateStr : String) (sl : HM × HM)
    (h : ∀ b ∈ st.schedule, reportOk st.violations b) :
    ∀ b ∈ (windowPhase clock core floaters finals st dateStr sl).schedule,
      reportOk (windowPhase clock core floaters finals st dateStr sl).violations b := by
  rw [windowPhase_schedule, windowPhase_violations]
  have hsub : ∀ s ∈ st.violations,
      s ∈ if (pickWorkers (windowPool core floaters finals (sliceTimes dateStr sl)
            st.hoursWorked (sliceDur sl)) st.hoursWorked (min WINDOW_MAX WINDOW_MIN)
            st.lastWin).length < WINDOW_MIN then
          st.violations ++ [undercoveredMsg "Window" dateStr (toMinutes sl.1)]
        else st.violations := by
    intro s hs
    by_cases hc : (pickWorkers (windowPool core floaters finals (sliceTimes dateStr sl)
        st.hoursWorked (sliceDur sl)) st.hoursWorked (min WINDOW_MAX WINDOW_MIN)
        st.lastWin).length < WINDOW_MIN
    · rw [if_pos hc]
      exact List.mem_append_left _ hs
    · rw [if_neg hc]
      exact hs
  intro b hb
  rcases List.mem_append.mp hb with hb | hb
  · exact reportOk_mono _ _ hsub b (h b hb)
  · rcases List.mem_singleton.mp hb with rfl
    constructor
    · intro _ hl
      simp only [List.length_map] at hl
      rw [if_pos hl]
      exact List.mem_append_right _ (List.mem_singleton_self _)
    · intro hcon
      have hne : ("Window" : String) = "Remote" := by simpa using hcon
      exact absurd hne (by decide)

/-- The Remote half keeps every block reported. -/
theorem remotePhase_report (clock : Nat → Nat) (core floaters : List Worker)
    (finals : List Exam) (st : St) (dateStr : String) (sl : HM × HM)
    (h : ∀ b ∈ st.schedule, reportOk st.violations b) :
    ∀ b ∈ (remotePhase clock core floaters finals st dateStr sl).schedule,
      reportOk (remotePhase clock core floaters finals st dateStr sl).violations b := by
  rw [remotePhase_schedule, remotePhase_violations]
  have hsub : ∀ s ∈ st.violations,
      s ∈ if (pickWorkers (remotePool core floaters finals (sliceTimes dateStr sl)
            st.hoursWorked (sliceDur sl)) st.hoursWorked REMOTE_MIN
            st.lastRem).length < REMOTE_MIN then
          st.violations ++ [undercoveredMsg "Remote" dateStr (toMinutes sl.1)]
        else st.violations := by
    intro s hs
    by_cases hc : (pickWorkers (remotePool core floaters finals (sliceTimes dateStr sl)
        st.hoursWorked (sliceDur sl)) st.hoursWorked REMOTE_MIN
        st.lastRem).length < REMOTE_MIN
    · rw [if_pos hc]
      exact List.mem_append_left _ hs
    · rw [if_neg hc]
      exact hs
  intro b hb
  rcases List.mem_append.mp hb with hb | hb
  · exact reportOk_mono _ _ hsub b (h b hb)
  · rcases List.mem_singleton.mp hb with rfl
    constructor
    · intro hcon
      have hne : ("Remote" : String) = "Window" := by simpa using hcon
      exact absurd hne (by decide)
    · intro _ hl
      simp only [List.length_map] at hl
      rw [if_pos hl]
      exact List.mem_append_right _ (List.mem_singleton_self _)

/-- Every block of the main pass is reported when undercovered. -/
theorem mainPass_report (clock : Nat → Nat) (core floaters : List Worker)
    (finals : List Exam) :
    ∀ b ∈ (mainPass clock core floaters finals).schedule,
      reportOk (mainPass clock core floaters finals).violations b := by
  have hgen : ∀ (l : List (String × (HM × HM))) (st : St),
      (∀ b ∈ st.schedule, reportOk st.violations b) →
      ∀ b ∈ (l.foldl (fun s p => processSlice clock core floaters finals s p.1 p.2)
          st).schedule,
        reportOk (l.foldl (fun s p => processSlice clock core floaters finals s p.1 p.2)
          st).violations b := by
    intro l
    induction l with
    | nil => exact fun st h => h
    | cons p rest ih =>
      intro st h
      rw [List.foldl_cons]
      exact ih _ (remotePhase_report clock core floaters finals _ p.1 p.2
        (windowPhase_report clock core floaters finals st p.1 p.2 h))
  exact hgen slicePairs initialState (by simp [initialState])

/-- C8: the greedy baseline always returns a result — all 28 blocks are
emitted whatever the staffing found, an undercovered block is recorded in the
violations list, `totalBlocks` counts the returned blocks, and the
`allConstraintsMet` flag is true exactly when the violations list is empty. -/
theorem C8_reporting (roster : List Worker) (finals : List Exam) (clock : Nat → Nat) :
    (autoAssignFinals roster finals clock).schedule.length = 28 ∧
    (autoAssignFinals roster finals clock).summary.totalBlocks =
      (autoAssignFinals roster finals clock).schedule.length ∧
    ((autoAssignFinals roster finals clock).summary.allConstraintsMet = true ↔
      (autoAssignFinals roster finals clock).summary.violations = []) ∧
    ∀ b ∈ (autoAssignFinals roster finals clock).schedule,
      reportOk (autoAssignFinals roster finals clock).summary.violations b := by
  refine ⟨?_, rfl, ?_, ?_⟩
  · show (autoAssignState roster finals clock).schedule.length = 28
    unfold autoAssignState balanceHours
    rw [balanceFold_len]
    show (mainPass clock (coreOf roster) (floatersOf roster) finals).schedule.length = 28
    unfold mainPass
    rw [foldSlices_len]
    decide
  · show ((autoAssignState roster finals clock).violations.length == 0) = true ↔
      (autoAssignState roster finals clock).violations = []
    simp [List.length_eq_zero]
  · show ∀ b ∈ (autoAssignState roster finals clock).schedule,
      reportOk (autoAssignState roster finals clock).violations b
    unfold autoAssignState balanceHours
    exact balanceFold_invP finals
      (reportOk (mainPass clock (coreOf roster) (floatersOf roster) finals).violations)
      (reportOk_push _) _ _
      (mainPass_report clock (coreOf roster) (floatersOf roster) finals)

/-- Witness for C8: on an empty roster every block is emitted empty and the
first Window block is reported undercovered. -/
theorem C8_reporting_witness :
    (autoAssignFinals [] [] clock0).schedule.length = 28 ∧
    undercoveredMsg "Window" "2025-05-12" 450 ∈
      (autoAssignFinals [] [] clock0).summary.violations :=
  ⟨(C8_reporting [] [] clock0).1, by
    have h := (C8_reporting [] [] clock0).2.2.2
      ⟨"2025-05-12", ⟨7,30⟩, ⟨11,30⟩, "Window", []⟩ (by decide)
    exact h.1 rfl (by decide)⟩

end FinalsScheduler
